import Mathlib

/-!
Verification of the subtitle-translation pipeline of this repository
(`subtitle_processor.py` and `translator.py`) against its specification.

The Python code is shallowly embedded: pure text manipulation becomes
functions on `List Char` / `String`, the batch loop of
`SubtitleProcessor._translate_process` becomes a recursive function
threading an explicit run state, and the outbound network call of
`GPTTranslator._translate_batch` is abstracted by a function argument
describing the (already retried) terminal outcome of one batch call.
-/

namespace SubTrans

/-! ## Whitespace model

Python's `str.split()` / `str.strip()` split and strip on ASCII whitespace
(we model the ASCII whitespace set; exotic Unicode whitespace is out of
scope of the texts handled here). -/

/-- The whitespace characters recognised by Python's `str.split()` /
`str.strip()` (ASCII part). -/
def isWs (c : Char) : Bool :=
  c = ' ' || c = '\t' || c = '\n' || c = '\r' || c = '\x0b' || c = '\x0c'

/-! ## Tag-removal, from `SubtitleProcessor._clean_subtitle_text`
(`subtitle_processor.py` lines 74-84)

The three `re.sub(..., '', text)` calls are modelled by recursive
functions performing the same leftmost, non-overlapping deletion:
`<font[^>]*>` then `</font>` then `<[^>]+>`. -/

/-- Consume characters up to and including the first `>` (the `[^>]*>`
tail of a tag pattern); `none` when no `>` remains. -/
def takeToGt : List Char → Option (List Char)
  | [] => none
  | c :: cs => if c = '>' then some cs else takeToGt cs

/-- Fuelled scanner for `re.sub(r'<font[^>]*>', '', text)`: delete
every leftmost match of an opening font tag.  Every recursive call
strictly shortens the list, so any fuel of at least the list's length
gives the substitution's value; the fuel only makes the recursion
structural. -/
def subFontOpenF : Nat → List Char → List Char
  | 0, l => l
  | fuel + 1, l =>
    match l with
    | '<' :: 'f' :: 'o' :: 'n' :: 't' :: rest =>
      match takeToGt rest with
      | some rest2 => subFontOpenF fuel rest2
      | none => '<' :: subFontOpenF fuel ('f' :: 'o' :: 'n' :: 't' :: rest)
    | c :: cs => c :: subFontOpenF fuel cs
    | [] => []

/-- `re.sub(r'<font[^>]*>', '', text)`. -/
def subFontOpen (l : List Char) : List Char := subFontOpenF l.length l

/-- `re.sub(r'</font>', '', text)`: delete every occurrence of the
closing font tag. -/
def subFontClose : List Char → List Char
  | '<' :: '/' :: 'f' :: 'o' :: 'n' :: 't' :: '>' :: rest => subFontClose rest
  | c :: cs => c :: subFontClose cs
  | [] => []

/-- Fuelled scanner for `re.sub(r'<[^>]+>', '', text)`: delete every
leftmost match of a generic tag (a `<`, at least one non-`>`
character, then `>`).  As with `subFontOpenF`, any fuel of at least
the list's length gives the substitution's value. -/
def subGenericF : Nat → List Char → List Char
  | 0, l => l
  | _ + 1, [] => []
  | fuel + 1, '<' :: cs =>
    if cs.head? = some '>' then '<' :: subGenericF fuel cs
    else
      match takeToGt cs with
      | some rest => subGenericF fuel rest
      | none => '<' :: subGenericF fuel cs
  | fuel + 1, c :: cs => c :: subGenericF fuel cs

/-- `re.sub(r'<[^>]+>', '', text)`. -/
def subGeneric (l : List Char) : List Char := subGenericF l.length l

/-! ## Whitespace collapsing, `' '.join(text.split())` and `.strip()` -/

/-- Python's `text.split()`: split on whitespace runs, dropping empty
pieces. -/
def splitWs : List Char → List (List Char)
  | [] => []
  | c :: cs =>
    if isWs c then splitWs cs
    else
      match cs with
      | [] => [[c]]
      | d :: _ =>
        if isWs d then [c] :: splitWs cs
        else
          match splitWs cs with
          | [] => [[c]]
          | w :: ws => (c :: w) :: ws

/-- Python's `' '.join(words)`. -/
def joinSpace : List (List Char) → List Char
  | [] => []
  | [w] => w
  | w :: ws => w ++ ' ' :: joinSpace ws

/-- Python's `text.strip()`: drop leading and trailing whitespace. -/
def stripWs (l : List Char) : List Char :=
  ((l.dropWhile isWs).reverse.dropWhile isWs).reverse

/-- Lines 82-84 of `subtitle_processor.py`:
`text = ' '.join(text.split())` followed by `return text.strip()`. -/
def collapseWs (l : List Char) : List Char :=
  stripWs (joinSpace (splitWs l))

/-- `SubtitleProcessor._clean_subtitle_text` (lines 74-84): the three
tag substitutions followed by whitespace collapsing and stripping. -/
def cleanText (s : String) : String :=
  ⟨collapseWs (subGeneric (subFontClose (subFontOpen s.data)))⟩

/-! ## Batching

Both `translator.py` (line 95, batch size 20) and
`subtitle_processor.py` (lines 169-176, batch size 50) slice a list
into consecutive fixed-size pieces by iterating a stepped `range`. -/

/-- Python's `range(0, stop, step)` for `step > 0`: the multiples of
`step` below `stop`. -/
def pyRange (stop step : Nat) : List Nat :=
  (List.range ((stop + step - 1) / step)).map (· * step)

/-- `translator.py` line 95:
`[texts[i:i + batch_size] for i in range(0, len(texts), batch_size)]`.
A Python slice `l[a:b]` is `(l.take b).drop a`. -/
def sliceBatches (B : Nat) (l : List α) : List (List α) :=
  (pyRange l.length B).map fun s => (l.take (s + B)).drop s

/-- `subtitle_processor.py` lines 169-176: the sequence of slices
`subs[start_idx:min(start_idx + batch_size, total_subs)]` for
`start_idx in range(0, total_subs, batch_size)`. -/
def procSlices (B : Nat) (l : List α) : List (List α) :=
  (pyRange l.length B).map fun s => (l.take (min (s + B) l.length)).drop s

/-- Reference recursive form of fixed-size chunking, used to reason
about the two slice-based definitions above. -/
def chunks : Nat → List α → List (List α)
  | _, [] => []
  | 0, l => [l]
  | B + 1, c :: cs =>
    (c :: cs).take (B + 1) :: chunks (B + 1) ((c :: cs).drop (B + 1))
termination_by _ l => l.length
decreasing_by
  simp only [List.length_drop, List.length_cons]
  omega

/-! ## Translation Client (`translator.py`) -/

/-- Stable sort of `(id, text)` pairs by id, modelling Python's stable
`list.sort(key=lambda x: x[0])` / `sorted(..., key=lambda x: x['id'])`
(`translator.py` lines 77 and 117). -/
def sortPairs (l : List (Nat × String)) : List (Nat × String) :=
  List.insertionSort (fun a b => a.1 ≤ b.1) l

/-- One outbound call of `GPTTranslator._translate_batch`
(lines 40-86) on a well-behaved remote service `f`: the items are
tagged `{"id": i, "text": text} for i, text in enumerate(batch)`
(line 46, ids local to the sub-batch), the service translates each
text keeping its id, and the client sorts the returned items by id
and keeps `(id, text)` pairs (lines 77-78). -/
def translateBatchIdeal (f : String → String) (batch : List String) :
    List (Nat × String) :=
  sortPairs (batch.enum.map fun p => (p.1, f p.2))

/-- `GPTTranslator.translate` (lines 88-118): split into sub-batches of
20, dispatch concurrently, collect the per-item results in sub-batch
completion order `order` (the nondeterministic `as_completed` order,
a permutation of the sub-batch indices), then sort every collected
pair by its id tag and return the texts. -/
def translateClient (f : String → String) (order : List Nat)
    (texts : List String) : List String :=
  if texts.isEmpty then []
  else
    let batches := sliceBatches 20 texts
    let collected := (order.map fun i => translateBatchIdeal f (batches.getD i [])).flatten
    (sortPairs collected).map Prod.snd

/-! ## Response validation (`translator.py` lines 70-83)

The JSON payload of one outbound call, as seen after
`json.loads`: `none` models a `json.JSONDecodeError`; a parsed object
carries an optional `translations` array whose items each have
optional `id` and `text` fields (a missing field raises `KeyError`
in the Python code). -/

/-- One item of the `translations` array of a response. -/
structure RespItem where
  id? : Option Nat
  text? : Option String
deriving DecidableEq

/-- A structurally parsed response object. -/
structure ParsedResp where
  translations? : Option (List RespItem)
deriving DecidableEq

/-- Lines 70-83 of `translator.py`: parse failure and a missing
`translations` key raise; otherwise the items are sorted by `id`
(raising `KeyError` on a missing `id` or `text` field) and returned.
No comparison with the number of texts sent is made. -/
def processResponse (resp : Option ParsedResp) :
    Except String (List (Nat × String)) :=
  match resp with
  | none => .error ("Failed to parse JSON response")
  | some p =>
    match p.translations? with
    | none => .error ("Response missing translations key")
    | some items =>
      if items.all fun it => it.id?.isSome && it.text?.isSome then
        .ok (sortPairs (items.map fun it => (it.id?.getD 0, it.text?.getD "")))
      else
        .error ("Invalid response format")

/-- The spec's notion of a malformed or incomplete response for a
request of `nSent` texts: invalid payload, missing `translations`
key, malformed item, or wrong item count.  Modelled from the spec
words of §4.2; used only to state the claim being checked. -/
def malformedResp (nSent : Nat) (resp : Option ParsedResp) : Bool :=
  match resp with
  | none => true
  | some p =>
    match p.translations? with
    | none => true
    | some items =>
      !(items.all fun it => it.id?.isSome && it.text?.isSome) ||
        items.length ≠ nSent

/-! ## Subtitle entries and serialization -/

/-- A subtitle entry (`pysrt.SubRipItem`): index, start and end
timestamps (kept as their rendered strings) and text. -/
structure Entry where
  index : Nat
  start : String
  stop : String
  text : String
deriving DecidableEq

/-- Stable sort of entries by index, modelling
`translated_subs.sort(key=lambda x: x.index)`
(`subtitle_processor.py` line 215). -/
def sortEntries (l : List Entry) : List Entry :=
  List.insertionSort (fun a b => a.index ≤ b.index) l

instance : IsTotal Entry (fun a b => a.index ≤ b.index) :=
  ⟨fun a b => Nat.le_total a.index b.index⟩

instance : IsTrans Entry (fun a b => a.index ≤ b.index) :=
  ⟨fun _ _ _ hab hbc => Nat.le_trans hab hbc⟩

/-- Lines 218-222 of `subtitle_processor.py`: the exact character
content written to the output file for a list of entries. -/
def srtSerialize (l : List Entry) : String :=
  String.join (l.map fun sub =>
    toString sub.index ++ "\n" ++ sub.start ++ " --> " ++ sub.stop ++ "\n"
      ++ sub.text ++ "\n\n")

/-- Serialization with indices renumbered sequentially from 1,
independent of the entries' own indices.  Modelled from the spec
words of §4.1 ("index is renumbered sequentially from 1 at
serialization time"); used only to state the claim being checked. -/
def srtSerializeRenumbered (l : List Entry) : String :=
  String.join (l.enum.map fun p =>
    toString (p.1 + 1) ++ "\n" ++ p.2.start ++ " --> " ++ p.2.stop ++ "\n"
      ++ p.2.text ++ "\n\n")

/-- `re.sub(r'^\[\d+\]\s*', '', trans_text)` (line 192): strip a
leading `[digits]` tag and following whitespace, if present. -/
def stripIdxTag (s : String) : String :=
  match s.data with
  | '[' :: rest =>
    let ds := rest.takeWhile Char.isDigit
    if ds.isEmpty then s
    else
      match rest.dropWhile Char.isDigit with
      | ']' :: rest2 => ⟨rest2.dropWhile isWs⟩
      | _ => s
  | _ => s

/-! ## The translation run (`SubtitleProcessor._translate_process`)

Lines 166-232, starting after the document has been loaded (the
entries are the input).  The outbound call
`self._translate_batch(batch_texts)` is abstracted by
`tr : List String → Except String (List String)`, the terminal
outcome of the retried `translator.translate` call for one batch.
The cancellation flag, settable by another thread and read at the top
of each loop iteration (line 170), is modelled by `cancelF k`, its
value at the `k`-th check.  The observable effects — the file write,
the status-callback strings and the progress-callback values (paired
with the processed count at call time) — are collected in the
result. -/

/-- Observable outcome of one `_translate_process` run. -/
instance {ε α : Type} [DecidableEq ε] [DecidableEq α] : DecidableEq (Except ε α)
  | .ok a, .ok b =>
    if h : a = b then isTrue (by rw [h])
    else isFalse (fun hh => h (Except.ok.inj hh))
  | .ok _, .error _ => isFalse (fun h => Except.noConfusion h)
  | .error _, .ok _ => isFalse (fun h => Except.noConfusion h)
  | .error e, .error e2 =>
    if h : e = e2 then isTrue (by rw [h])
    else isFalse (fun hh => h (Except.error.inj hh))

structure RunResult where
  written : Option String
  statuses : List String
  progressCalls : List (Nat × ℚ)
  outcome : Except String Unit
deriving DecidableEq

/-- Mutable state threaded through the batch loop. -/
structure RunState where
  translated : List Entry
  processed : Nat
  completedBatches : Nat
  statuses : List String
  progressCalls : List (Nat × ℚ)
deriving DecidableEq

/-- How the batch loop ended. -/
inductive LoopExit where
  | done
  | cancelled
  | failed (msg : String)
deriving DecidableEq

/-- Lines 179-183: the texts sent for one batch — each entry's text is
cleaned and prefixed with its `[index] ` tag. -/
def batchTexts (batch : List Entry) : List String :=
  batch.map fun sub => "[" ++ toString sub.index ++ "] " ++ cleanText sub.text

/-- The batch loop of lines 169-212.  Per iteration: cancellation
check (lines 170-173), text cleaning and `[index] ` tagging
(lines 179-183), the translation call, then result assembly with the
original index and timing (lines 190-200), the progress callback
`min(100, processed/total*100)` (lines 55-60 via line 203) and the
batch-completion status callback (lines 204-208). -/
def runLoop (tr : List String → Except String (List String))
    (cancelF : Nat → Bool) (total : Nat) :
    List (List Entry) → Nat → RunState → RunState × LoopExit
  | [], _, st => (st, .done)
  | batch :: rest, k, st =>
    if cancelF k then
      ({ st with statuses := st.statuses ++ ["Translation cancelled"] }, .cancelled)
    else
      match tr (batchTexts batch) with
      | .error e => (st, .failed e)
      | .ok ts =>
        let newSubs := (batch.zip ts).map fun p =>
          { index := p.1.index, start := p.1.start, stop := p.1.stop,
            text := stripIdxTag p.2 : Entry }
        let processed := st.processed + batch.length
        let prog := min (100 : ℚ) ((processed : ℚ) / (total : ℚ) * 100)
        runLoop tr cancelF total rest (k + 1)
          { translated := st.translated ++ newSubs
            processed := processed
            completedBatches := st.completedBatches + 1
            statuses := st.statuses ++
              ["Completed batch " ++ toString (st.completedBatches + 1) ++ "/"
                ++ toString ((total + 50 - 1) / 50) ++ " (" ++ toString processed
                ++ "/" ++ toString total ++ " subtitles)"]
            progressCalls := st.progressCalls ++ [(processed, prog)] }

/-- `_translate_process` from line 166 on: run the batch loop over the
50-entry slices; on normal loop exit sort the collected entries by
index, write the serialized file (lines 214-222) and emit the final
status and the final `progress_callback(100)` (lines 225-227); on
cancellation return without writing; on a batch failure emit the
outer `Error: ...` status (line 231) and propagate the error. -/
def translateProcess (tr : List String → Except String (List String))
    (cancelF : Nat → Bool) (outPath : String) (subs : List Entry) : RunResult :=
  let total := subs.length
  let r := runLoop tr cancelF total (procSlices 50 subs) 0 ⟨[], 0, 0, [], []⟩
  match r.2 with
  | .done =>
    { written := some (srtSerialize (sortEntries r.1.translated))
      statuses := r.1.statuses ++
        ["Translation completed successfully! Saved to: " ++ outPath]
      progressCalls := r.1.progressCalls ++ [(r.1.processed, 100)]
      outcome := .ok () }
  | .cancelled =>
    { written := none, statuses := r.1.statuses,
      progressCalls := r.1.progressCalls, outcome := .ok () }
  | .failed e =>
    { written := none, statuses := r.1.statuses ++ ["Error: " ++ e],
      progressCalls := r.1.progressCalls, outcome := .error e }

/-- The flag value seen at the `k`-th cancellation check of a run,
given its value when the run thread starts and the external
cancellation requests arriving during the run: once set it stays set,
and `translate()` only ever clears it before the thread starts. -/
def cancelSeq (init : Bool) (extSet : Nat → Bool) (k : Nat) : Bool :=
  init || extSet k

/-- `SubtitleProcessor.translate` (lines 48-53): clear the
cancellation flag (`self.cancel_flag = False`, line 50), then start
`_translate_process`.  The flag value the run observes therefore
starts from `false` whatever the prior flag value was; only external
requests arriving during the run can set it. -/
def translateMethod (_priorCancel : Bool)
    (tr : List String → Except String (List String))
    (extSet : Nat → Bool) (outPath : String) (subs : List Entry) : RunResult :=
  translateProcess tr (cancelSeq false extSet) outPath subs

/-! ## Residual-tag invariant

Used to reason about the tag-removal passes: in the output of
`subGeneric`, every remaining `<` is either immediately followed by
`>` (the pattern `<>`, which `<[^>]+>` cannot match) or has no `>`
anywhere after it — so no further tag substitution can fire. -/

/-- Does the list contain a `>`? -/
def hasGt : List Char → Bool
  | [] => false
  | c :: cs => c = '>' || hasGt cs

/-- The tail after a `<` is harmless: it starts with `>` or contains
no `>` at all. -/
def okLt (cs : List Char) : Bool := (cs.head? == some '>') || !hasGt cs

/-- Every `<` in the list has a harmless tail. -/
def tagFree : List Char → Bool
  | [] => true
  | c :: cs => ((c != '<') || okLt cs) && tagFree cs

/-- A word with no `>` in it. -/
def noGt (w : List Char) : Bool := !hasGt w

/-- The per-word form of `tagFree`, relative to whether every later
word is `>`-free. -/
def wordOk (later : Bool) : List Char → Bool
  | [] => true
  | c :: cs =>
    ((c != '<') || (cs.head? == some '>') || (noGt cs && later)) && wordOk later cs

/-- The word-list form of `tagFree`. -/
def wsOk : List (List Char) → Bool
  | [] => true
  | w :: ws => wordOk (ws.all noGt) w && wsOk ws

/-- A nonempty, whitespace-free word, as produced by `splitWs`. -/
def goodWord (w : List Char) : Bool := !w.isEmpty && w.all fun c => !isWs c

/-- Modelled from the spec, §4.2/§6, restricted to structural shape: a
response that is unparsable, lacks the `translations` key, or has an
item missing its `id` or `text` field.  (The spec additionally calls a
wrong item count malformed; that condition is intentionally absent
here, matching what the code checks.) -/
def badShapeResp (resp : Option ParsedResp) : Bool :=
  match resp with
  | none => true
  | some p =>
    match p.translations? with
    | none => true
    | some items => !(items.all fun it => it.id?.isSome && it.text?.isSome)

/-! ## Concrete test vectors -/

/-- Twenty-one distinct texts: one full sub-batch of 20 plus one more. -/
def texts21 : List String :=
  ["a0", "a1", "a2", "a3", "a4", "a5", "a6", "a7", "a8", "a9", "a10",
   "a11", "a12", "a13", "a14", "a15", "a16", "a17", "a18", "a19", "a20"]

/-- A subtitle entry whose source index is 7 (not 1). -/
def entrySeven : Entry := ⟨7, "00:00:01,000", "00:00:02,000", "Hi"⟩

/-- A translation call that succeeds, returning the texts unchanged. -/
def echoTr : List String → Except String (List String) := fun ts => .ok ts

/-- A translation call whose retries are exhausted: every batch ends in
a terminal error. -/
def boomTr : List String → Except String (List String) := fun _ => .error ("boom")

/-- A run during which no cancellation is ever requested. -/
def noCancel : Nat → Bool := fun _ => false

/-- A run whose cancellation flag is set from the very start. -/
def allCancel : Nat → Bool := fun _ => true

/-- An output path used in concrete runs. -/
def outPath0 : String := "out.srt"

/-! # Theorems -/

/-- C1: the claim says each outbound call tags each item with its
original position in the full input list and the collected results
are sorted by that tag, making `result[i]` the translation of
`input[i]` for every completion order.  In the code the tag is the
position inside the 20-item sub-batch (`enumerate(batch)`,
`translator.py` line 46), so with 21 inputs the lone item of the
second sub-batch carries id 0 and the id sort interleaves the
sub-batches: element 1 of the output is the translation of input 20
— even for in-order completion, and element 0 is wrong for reversed
completion.  The output length is still 21. -/
theorem c1_subBatch_ids_break_order :
    (translateClient (fun s => s) [0, 1] texts21).getD 1 "" ≠ texts21.getD 1 ""
    ∧ (translateClient (fun s => s) [1, 0] texts21).getD 0 "" ≠ texts21.getD 0 ""
    ∧ (translateClient (fun s => s) [0, 1] texts21).length = texts21.length := by
  refine ⟨by decide, by decide, by decide⟩

/-- C2 counterexample: a successful run over a single entry whose
source index is 7 writes that entry with index field `7`, which
differs from the sequentially-renumbered serialization the claim
describes (which would write `1`). -/
theorem c2_indices_not_renumbered :
    (translateProcess echoTr noCancel outPath0 [entrySeven]).written
      = some (srtSerialize (sortEntries [entrySeven]))
    ∧ srtSerialize (sortEntries [entrySeven])
      ≠ srtSerializeRenumbered (sortEntries [entrySeven]) := by
  refine ⟨by decide, by decide⟩

/-- C3 counterexample: a response carrying a single well-formed item
for a request of two texts is malformed in the spec's sense (wrong
item count) yet is accepted by the client, which returns the partial
result instead of raising. -/
theorem c3_wrong_count_accepted :
    malformedResp 2 (some ⟨some [⟨some 0, some ("hola")⟩]⟩) = true
    ∧ processResponse (some ⟨some [⟨some 0, some ("hola")⟩]⟩)
      = .ok [(0, "hola")] := by
  refine ⟨by decide, by decide⟩

/-- C3 amended: a response that fails to parse, lacks the
`translations` key, or has an item missing its `id` or `text` field
does raise a terminal error; only the wrong-item-count condition is
unchecked. -/
theorem c3_shape_errors (resp : Option ParsedResp)
    (h : badShapeResp resp = true) :
    ∃ e, processResponse resp = .error e := by
  match resp with
  | none => exact ⟨_, rfl⟩
  | some p =>
    match hp : p.translations? with
    | none =>
      refine ⟨"Response missing translations key", ?_⟩
      simp [processResponse, hp]
    | some items =>
      simp only [badShapeResp, hp, Bool.not_eq_true'] at h
      refine ⟨"Invalid response format", ?_⟩
      simp [processResponse, hp, h]

/-- Witness for the C3 amended theorem at a concrete input. -/
theorem c3_shape_errors_witness :
    ∃ e, processResponse none = .error e :=
  c3_shape_errors none (by decide)

/-- C4 counterexample: the claim says cleaning strips ASS-style
`{\...}` blocks; the code has no substitution for them, so a text
starting with such a block is returned unchanged rather than with the
block removed. -/
theorem c4_ass_block_kept :
    cleanText ("\x7b\\an8\x7dHello") = "\x7b\\an8\x7dHello"
    ∧ cleanText ("\x7b\\an8\x7dHello") ≠ "Hello" := by
  refine ⟨by decide, by decide⟩

/-- C8 counterexample: on a document with no entries the batch loop
has zero iterations, so the cancellation flag — set from the very
first check on — is never consulted: the run still writes the (empty)
output file, reports successful completion and never emits the
cancelled status. -/
theorem c8_empty_run_writes_file :
    (translateProcess echoTr allCancel outPath0 []).written = some ("")
    ∧ "Translation cancelled" ∉ (translateProcess echoTr allCancel outPath0 []).statuses
    ∧ (translateProcess echoTr allCancel outPath0 []).outcome = .ok () := by
  refine ⟨by decide, by decide, by decide⟩

/-! ## Tag-invariant lemmas

These support the idempotence analysis of the cleaning pass: `subGeneric`
leaves every remaining `<` either immediately before a `>` or with no
`>` anywhere after it (`tagFree`), whitespace collapsing preserves that
shape, and on a `tagFree` text all three tag substitutions are
identities. -/

theorem hasGt_iff_mem (l : List Char) : hasGt l = true ↔ '>' ∈ l := by
  induction l with
  | nil => simp [hasGt]
  | cons c cs ih =>
    simp only [hasGt, Bool.or_eq_true, decide_eq_true_eq, ih, List.mem_cons]
    constructor
    · rintro (rfl | h)
      · exact Or.inl rfl
      · exact Or.inr h
    · rintro (rfl | h)
      · exact Or.inl rfl
      · exact Or.inr h

theorem hasGt_append (a b : List Char) :
    hasGt (a ++ b) = (hasGt a || hasGt b) := by
  induction a with
  | nil => simp [hasGt]
  | cons c cs ih => simp [hasGt, ih, Bool.or_assoc]

theorem hasGt_false_sublist {a b : List Char} (hab : List.Sublist a b)
    (h : hasGt b = false) : hasGt a = false := by
  by_contra hcon
  rw [Bool.not_eq_false, hasGt_iff_mem] at hcon
  have : '>' ∈ b := hab.subset hcon
  rw [← hasGt_iff_mem] at this
  rw [this] at h
  exact Bool.noConfusion h

theorem okLt_of_hasGt_false (l : List Char) (h : hasGt l = false) :
    okLt l = true := by
  simp [okLt, h]

theorem tagFree_cons (c : Char) (cs : List Char) :
    tagFree (c :: cs) = (((c != '<') || okLt cs) && tagFree cs) := rfl

theorem takeToGt_none_iff (l : List Char) :
    takeToGt l = none ↔ hasGt l = false := by
  induction l with
  | nil => simp [takeToGt, hasGt]
  | cons c cs ih =>
    by_cases hc : c = '>'
    · subst hc
      simp [takeToGt, hasGt]
    · simp [takeToGt, hasGt, hc, ih]

theorem takeToGt_some_length :
    ∀ (l r : List Char), takeToGt l = some r → r.length < l.length := by
  intro l
  induction l with
  | nil => intro r h; simp [takeToGt] at h
  | cons c cs ih =>
    intro r h
    by_cases hc : c = '>'
    · subst hc
      simp [takeToGt] at h
      subst h
      simp
    · simp [takeToGt, hc] at h
      exact Nat.lt_trans (ih r h) (Nat.lt_succ_self _)

theorem takeToGt_some_sublist :
    ∀ (l r : List Char), takeToGt l = some r → List.Sublist r l := by
  intro l
  induction l with
  | nil => intro r h; simp [takeToGt] at h
  | cons c cs ih =>
    intro r h
    by_cases hc : c = '>'
    · subst hc
      simp [takeToGt] at h
      subst h
      exact List.sublist_cons_self _ _
    · simp [takeToGt, hc] at h
      exact (ih r h).cons _

theorem subGenericF_sublist : ∀ (fuel : Nat) (l : List Char),
    List.Sublist (subGenericF fuel l) l := by
  intro fuel l
  induction fuel, l using subGenericF.induct with
  | case1 l => exact List.Sublist.refl _
  | case2 n => simp [subGenericF]
  | case3 fuel cs h ih =>
    simp only [subGenericF, h, if_true]
    exact ih.cons₂ _
  | case4 fuel cs h rest2 hx ih =>
    simp only [subGenericF, h, if_false, hx]
    exact ih.trans ((takeToGt_some_sublist cs rest2 hx).cons _)
  | case5 fuel cs h hx ih =>
    simp only [subGenericF, h, if_false, hx]
    exact ih.cons₂ _
  | case6 fuel c cs hc ih =>
    simp only [subGenericF]
    exact ih.cons₂ _

theorem okLt_subGenericF_gtCons (fuel : Nat) (ds : List Char) :
    okLt (subGenericF fuel ('>' :: ds)) = true := by
  cases fuel with
  | zero => simp [subGenericF, okLt]
  | succ f => simp [subGenericF, okLt]

theorem tagFree_subGenericF : ∀ (fuel : Nat) (l : List Char),
    l.length ≤ fuel → tagFree (subGenericF fuel l) = true := by
  intro fuel l
  induction fuel, l using subGenericF.induct with
  | case1 l =>
    intro hlen
    have : l = [] := by
      cases l with
      | nil => rfl
      | cons c cs => simp at hlen
    subst this
    simp [subGenericF, tagFree]
  | case2 n => intro _; simp [subGenericF, tagFree]
  | case3 fuel cs h ih =>
    intro hlen
    simp only [List.length_cons] at hlen
    simp only [subGenericF, h, if_true]
    rw [tagFree_cons]
    rw [Bool.and_eq_true]
    refine ⟨?_, ih (by omega)⟩
    cases cs with
    | nil => simp at h
    | cons d ds =>
      simp only [List.head?_cons, Option.some.injEq] at h
      subst h
      simp [okLt_subGenericF_gtCons]
  | case4 fuel cs h rest2 hx ih =>
    intro hlen
    simp only [List.length_cons] at hlen
    simp only [subGenericF, h, if_false, hx]
    exact ih (by have := takeToGt_some_length cs rest2 hx; omega)
  | case5 fuel cs h hx ih =>
    intro hlen
    simp only [List.length_cons] at hlen
    simp only [subGenericF, h, if_false, hx]
    rw [tagFree_cons]
    rw [Bool.and_eq_true]
    refine ⟨?_, ih (by omega)⟩
    have hgt : hasGt cs = false := (takeToGt_none_iff cs).mp hx
    have hgt2 : hasGt (subGenericF fuel cs) = false :=
      hasGt_false_sublist (subGenericF_sublist fuel cs) hgt
    simp [okLt_of_hasGt_false _ hgt2]
  | case6 fuel c cs hc ih =>
    intro hlen
    simp only [List.length_cons] at hlen
    simp only [subGenericF]
    rw [tagFree_cons]
    rw [Bool.and_eq_true]
    refine ⟨?_, ih (by omega)⟩
    have hc2 : (c != '<') = true := by
      simp only [bne_iff_ne, ne_eq]
      exact fun h0 => hc h0
    simp [hc2]

theorem subFontClose_of_tagFree : ∀ (l : List Char),
    tagFree l = true → subFontClose l = l := by
  intro l
  induction l using subFontClose.induct with
  | case1 rest ih =>
    intro ht
    exfalso
    rw [tagFree_cons] at ht
    simp [okLt, hasGt] at ht
  | case2 c cs hx ih =>
    intro ht
    rw [tagFree_cons, Bool.and_eq_true] at ht
    simp only [subFontClose]
    rw [ih ht.2]
  | case3 => intro _; simp [subFontClose]

theorem subFontOpenF_of_tagFree : ∀ (fuel : Nat) (l : List Char),
    l.length ≤ fuel → tagFree l = true → subFontOpenF fuel l = l := by
  intro fuel l
  induction fuel, l using subFontOpenF.induct with
  | case1 l => intro _ _; simp [subFontOpenF]
  | case2 fuel rest rest2 hx ih =>
    intro _ ht
    exfalso
    rw [tagFree_cons] at ht
    have hgt : hasGt rest = false := by
      simp [okLt, hasGt] at ht
      exact ht.1
    rw [← takeToGt_none_iff] at hgt
    rw [hgt] at hx
    exact Option.noConfusion hx
  | case3 fuel rest hx ih =>
    intro hlen ht
    rw [tagFree_cons, Bool.and_eq_true] at ht
    simp only [subFontOpenF, hx]
    rw [ih (by simp only [List.length_cons] at hlen ⊢; omega) ht.2]
  | case4 fuel c cs hx ih =>
    intro hlen ht
    rw [tagFree_cons, Bool.and_eq_true] at ht
    simp only [subFontOpenF]
    rw [ih (by simp only [List.length_cons] at hlen; omega) ht.2]
  | case5 fuel => intro _ _; simp [subFontOpenF]

theorem subGenericF_of_tagFree : ∀ (fuel : Nat) (l : List Char),
    l.length ≤ fuel → tagFree l = true → subGenericF fuel l = l := by
  intro fuel l
  induction fuel, l using subGenericF.induct with
  | case1 l => intro _ _; simp [subGenericF]
  | case2 n => intro _ _; simp [subGenericF]
  | case3 fuel cs h ih =>
    intro hlen ht
    rw [tagFree_cons, Bool.and_eq_true] at ht
    simp only [subGenericF, h, if_true]
    rw [ih (by simp only [List.length_cons] at hlen; omega) ht.2]
  | case4 fuel cs h rest2 hx ih =>
    intro hlen ht
    exfalso
    rw [tagFree_cons, Bool.and_eq_true] at ht
    have h1 := ht.1
    simp only [okLt] at h1
    simp at h1
    rcases h1 with h1 | h1
    · exact h h1
    · rw [← takeToGt_none_iff] at h1
      rw [h1] at hx
      exact Option.noConfusion hx
  | case5 fuel cs h hx ih =>
    intro hlen ht
    rw [tagFree_cons, Bool.and_eq_true] at ht
    simp only [subGenericF, h, if_false, hx]
    rw [ih (by simp only [List.length_cons] at hlen; omega) ht.2]
  | case6 fuel c cs hc ih =>
    intro hlen ht
    rw [tagFree_cons, Bool.and_eq_true] at ht
    simp only [subGenericF]
    rw [ih (by simp only [List.length_cons] at hlen; omega) ht.2]

theorem subFontOpen_of_tagFree (l : List Char) (h : tagFree l = true) :
    subFontOpen l = l :=
  subFontOpenF_of_tagFree l.length l (le_refl _) h

theorem subGeneric_of_tagFree (l : List Char) (h : tagFree l = true) :
    subGeneric l = l :=
  subGenericF_of_tagFree l.length l (le_refl _) h

theorem isWs_ne_gt (c : Char) (h : isWs c = true) : c ≠ '>' := by
  intro heq
  subst heq
  simp [isWs] at h

theorem isWs_ne_lt (c : Char) (h : isWs c = true) : c ≠ '<' := by
  intro heq
  subst heq
  simp [isWs] at h

theorem splitWs_ws_cons (c : Char) (cs : List Char) (h : isWs c = true) :
    splitWs (c :: cs) = splitWs cs := by
  rw [splitWs.eq_def]
  simp [h]

theorem splitWs_single (c : Char) (h : isWs c = false) :
    splitWs [c] = [[c]] := by
  rw [splitWs.eq_def]
  simp [h]

theorem splitWs_cons_wsHead (c1 c : Char) (cs : List Char)
    (h1 : isWs c1 = false) (h : isWs c = true) :
    splitWs (c1 :: c :: cs) = [c1] :: splitWs (c :: cs) := by
  rw [splitWs.eq_def]
  simp [h1, h]

theorem splitWs_cons_cons (c1 c : Char) (cs : List Char)
    (h1 : isWs c1 = false) (h : isWs c = false) :
    splitWs (c1 :: c :: cs)
      = match splitWs (c :: cs) with
        | [] => [[c1]]
        | w :: ws => (c1 :: w) :: ws := by
  rw [splitWs.eq_def]
  simp [h1, h]

theorem allNoGt_splitWs : ∀ (l : List Char),
    (splitWs l).all noGt = !hasGt l := by
  intro l
  induction l using splitWs.induct with
  | case1 => simp [splitWs, hasGt]
  | case2 c cs h ih =>
    have hne : c ≠ '>' := isWs_ne_gt c h
    rw [splitWs_ws_cons c cs h, ih]
    simp [hasGt, hne]
  | case3 c h =>
    rw [splitWs_single c (by simpa using h)]
    simp [noGt, hasGt]
  | case4 c1 h1 c cs h ih =>
    rw [splitWs_cons_wsHead c1 c cs (by simpa using h1) h]
    simp [noGt, hasGt, Bool.not_or, ih]
  | case5 c1 h1 c cs h hs ih =>
    rw [splitWs_cons_cons c1 c cs (by simpa using h1) (by simpa using h), hs]
    rw [hs] at ih
    have ih2 : hasGt (c :: cs) = false := by simpa using ih.symm
    rw [show hasGt (c1 :: c :: cs) = ((c1 = '>') || hasGt (c :: cs)) from rfl, ih2]
    simp [noGt, hasGt]
  | case6 c1 h1 c cs h w ws hs ih =>
    rw [splitWs_cons_cons c1 c cs (by simpa using h1) (by simpa using h), hs]
    rw [hs] at ih
    simp only [List.all_cons] at ih
    simp only [List.all_cons, noGt, hasGt, Bool.not_or] at ih ⊢
    rw [Bool.and_assoc, ih]

theorem splitWs_mem : ∀ (l : List Char) (w : List Char) (x : Char),
    w ∈ splitWs l → x ∈ w → x ∈ l := by
  intro l
  induction l using splitWs.induct with
  | case1 => intro w x hw; simp [splitWs] at hw
  | case2 c cs h ih =>
    intro w x hw hx
    rw [splitWs_ws_cons c cs h] at hw
    exact List.mem_cons_of_mem _ (ih w x hw hx)
  | case3 c h =>
    intro w x hw hx
    rw [splitWs_single c (by simpa using h)] at hw
    simp at hw
    subst hw
    simp at hx
    simp [hx]
  | case4 c1 h1 c cs h ih =>
    intro w x hw hx
    rw [splitWs_cons_wsHead c1 c cs (by simpa using h1) h] at hw
    rcases List.mem_cons.mp hw with rfl | hmem
    · simp at hx
      simp [hx]
    · exact List.mem_cons_of_mem _ (ih w x hmem hx)
  | case5 c1 h1 c cs h hs ih =>
    intro w x hw hx
    rw [splitWs_cons_cons c1 c cs (by simpa using h1) (by simpa using h), hs] at hw
    simp at hw
    subst hw
    simp at hx
    simp [hx]
  | case6 c1 h1 c cs h w0 ws hs ih =>
    intro w x hw hx
    rw [splitWs_cons_cons c1 c cs (by simpa using h1) (by simpa using h), hs] at hw
    rcases List.mem_cons.mp hw with rfl | hmem
    · rcases List.mem_cons.mp hx with rfl | hxw
      · simp
      · exact List.mem_cons_of_mem _ (ih w0 x (hs ▸ List.mem_cons_self _ _) hxw)
    · exact List.mem_cons_of_mem _ (ih w x (hs ▸ List.mem_cons_of_mem _ hmem) hx)

theorem splitWs_head (d : Char) (ds : List Char) (h : isWs d = false) :
    ∃ w2 ws2, splitWs (d :: ds) = (d :: w2) :: ws2 := by
  cases ds with
  | nil => exact ⟨[], [], by rw [splitWs_single d h]⟩
  | cons d2 ds2 =>
    by_cases h2 : isWs d2
    · exact ⟨[], splitWs (d2 :: ds2), splitWs_cons_wsHead d d2 ds2 h h2⟩
    · cases hs : splitWs (d2 :: ds2) with
      | nil =>
        refine ⟨[], [], ?_⟩
        rw [splitWs_cons_cons d d2 ds2 h (by simpa using h2), hs]
      | cons w ws =>
        refine ⟨w, ws, ?_⟩
        rw [splitWs_cons_cons d d2 ds2 h (by simpa using h2), hs]

theorem wsOk_splitWs : ∀ (l : List Char),
    tagFree l = true → wsOk (splitWs l) = true := by
  intro l
  induction l using splitWs.induct with
  | case1 => intro _; simp [splitWs, wsOk]
  | case2 c cs h ih =>
    intro ht
    rw [tagFree_cons, Bool.and_eq_true] at ht
    rw [splitWs_ws_cons c cs h]
    exact ih ht.2
  | case3 c h =>
    intro _
    rw [splitWs_single c (by simpa using h)]
    simp [wsOk, wordOk, noGt, hasGt]
  | case4 c1 h1 c cs h ih =>
    intro ht
    rw [tagFree_cons, Bool.and_eq_true] at ht
    rw [splitWs_cons_wsHead c1 c cs (by simpa using h1) h]
    simp only [wsOk, Bool.and_eq_true]
    refine ⟨?_, ih ht.2⟩
    by_cases hc1 : c1 = '<'
    · subst hc1
      have hok := ht.1
      simp only [okLt] at hok
      simp at hok
      have hok2 : hasGt (c :: cs) = false := by
        rcases hok with hok | hok
        · exact absurd (by simpa using hok) (isWs_ne_gt c h)
        · exact hok
      have hall := allNoGt_splitWs (c :: cs)
      rw [hok2] at hall
      simp only [Bool.not_false] at hall
      simp [wordOk, noGt, hasGt, hall]
    · simp [wordOk, noGt, hasGt, hc1]
  | case5 c1 h1 c cs h hs ih =>
    intro _
    obtain ⟨w2, ws2, hw⟩ := splitWs_head c cs (by simpa using h)
    rw [hw] at hs
    exact absurd hs (List.cons_ne_nil _ _)
  | case6 c1 h1 c cs h w ws hs ih =>
    intro ht
    rw [tagFree_cons, Bool.and_eq_true] at ht
    have ihr := ih ht.2
    rw [hs] at ihr
    simp only [wsOk, Bool.and_eq_true] at ihr
    rw [splitWs_cons_cons c1 c cs (by simpa using h1) (by simpa using h), hs]
    simp only [wsOk, Bool.and_eq_true]
    refine ⟨?_, ihr.2⟩
    simp only [wordOk, Bool.and_eq_true]
    refine ⟨?_, ihr.1⟩
    by_cases hc1 : c1 = '<'
    · subst hc1
      have hok := ht.1
      simp only [okLt] at hok
      simp at hok
      rcases hok with hok | hok
      · obtain ⟨w2, ws2, hw⟩ := splitWs_head c cs (by simpa using h)
        rw [hw] at hs
        obtain ⟨hw1, _⟩ := List.cons.inj hs
        have hcgt : c = '>' := by simpa using hok
        subst hcgt
        rw [← hw1]
        simp
      · have hall := allNoGt_splitWs (c :: cs)
        rw [hs, hok] at hall
        simp only [Bool.not_false, List.all_cons, Bool.and_eq_true] at hall
        have hw2 : hasGt w = false := by simpa [noGt] using hall.1
        simp [noGt, hw2, hall.2]
    · simp [hc1]

theorem hasGt_joinSpace : ∀ (ws : List (List Char)),
    hasGt (joinSpace ws) = ws.any hasGt := by
  intro ws
  induction ws using joinSpace.induct with
  | case1 => simp [joinSpace, hasGt]
  | case2 w => simp [joinSpace]
  | case3 w ws hne ih =>
    cases ws with
    | nil => exact absurd rfl hne
    | cons w2 ws2 =>
      simp only [joinSpace]
      rw [hasGt_append,
        show hasGt (' ' :: joinSpace (w2 :: ws2))
          = ((' ' = '>') || hasGt (joinSpace (w2 :: ws2))) from rfl, ih]
      simp

theorem allNoGt_eq_not_any (ws : List (List Char)) :
    ws.all noGt = !ws.any hasGt := by
  induction ws with
  | nil => simp
  | cons w ws ih => simp [noGt, ih, Bool.not_or]

theorem wordOk_append : ∀ (w : List Char) (later : Bool) (rest : List Char),
    wordOk later w = true → tagFree rest = true →
    (rest.head? == some '>') = false →
    (later = true → hasGt rest = false) →
    tagFree (w ++ rest) = true := by
  intro w
  induction w with
  | nil => intro later rest _ ht _ _; simpa using ht
  | cons c w2 ih =>
    intro later rest hw ht hrh hlater
    simp only [wordOk, Bool.and_eq_true] at hw
    rw [List.cons_append, tagFree_cons, Bool.and_eq_true]
    refine ⟨?_, ih later rest hw.2 ht hrh hlater⟩
    by_cases hc : c = '<'
    · subst hc
      have hw1 := hw.1
      simp at hw1
      rcases hw1 with hw1 | ⟨hng, hl⟩
      · cases w2 with
        | nil => simp at hw1
        | cons d w3 =>
          simp only [List.head?_cons, Option.some.injEq] at hw1
          subst hw1
          simp [okLt]
      · have h1 : hasGt w2 = false := by simpa [noGt] using hng
        have h2 : hasGt rest = false := hlater hl
        have h3 : hasGt (w2 ++ rest) = false := by
          rw [hasGt_append, h1, h2]
          rfl
        simp [okLt_of_hasGt_false _ h3]
    · simp [hc]

theorem tagFree_joinSpace : ∀ (ws : List (List Char)),
    wsOk ws = true → tagFree (joinSpace ws) = true := by
  intro ws
  induction ws using joinSpace.induct with
  | case1 => intro _; simp [joinSpace, tagFree]
  | case2 w =>
    intro hok
    have hw : wordOk true w = true := by
      simp only [wsOk, List.all_nil, Bool.and_eq_true] at hok
      exact hok.1
    have h2 := wordOk_append w true [] hw (by simp [tagFree]) (by simp)
      (fun _ => by simp [hasGt])
    simpa [joinSpace] using h2
  | case3 w ws hne ih =>
    intro hok
    cases ws with
    | nil => exact absurd rfl hne
    | cons w2 ws2 =>
      simp only [wsOk, Bool.and_eq_true] at hok
      have hj := ih (by simp only [wsOk, Bool.and_eq_true]; exact hok.2)
      have h2 := wordOk_append w ((w2 :: ws2).all noGt)
        (' ' :: joinSpace (w2 :: ws2)) hok.1
        (by rw [tagFree_cons]; simp [hj, okLt])
        (by simp)
        (fun hl => by
          have hany : (w2 :: ws2).any hasGt = false := by
            have ha := allNoGt_eq_not_any (w2 :: ws2)
            rw [hl] at ha
            simpa using ha.symm
          rw [show hasGt (' ' :: joinSpace (w2 :: ws2))
              = ((' ' = '>') || hasGt (joinSpace (w2 :: ws2))) from rfl,
            hasGt_joinSpace, hany]
          simp)
      simpa [joinSpace] using h2

theorem splitWs_good : ∀ (l : List Char),
    (splitWs l).all goodWord = true := by
  intro l
  induction l using splitWs.induct with
  | case1 => simp [splitWs]
  | case2 c cs h ih => rw [splitWs_ws_cons c cs h]; exact ih
  | case3 c h =>
    rw [splitWs_single c (by simpa using h)]
    simp [goodWord, h]
  | case4 c1 h1 c cs h ih =>
    rw [splitWs_cons_wsHead c1 c cs (by simpa using h1) h]
    simp only [List.all_cons, Bool.and_eq_true]
    exact ⟨by simp [goodWord, h1], ih⟩
  | case5 c1 h1 c cs h hs ih =>
    rw [splitWs_cons_cons c1 c cs (by simpa using h1) (by simpa using h), hs]
    simp [goodWord, h1]
  | case6 c1 h1 c cs h w ws hs ih =>
    rw [splitWs_cons_cons c1 c cs (by simpa using h1) (by simpa using h), hs]
    rw [hs] at ih
    simp only [List.all_cons, Bool.and_eq_true] at ih ⊢
    have hw : w.all (fun c => !isWs c) = true := by
      have h3 := ih.1
      simp only [goodWord, Bool.and_eq_true] at h3
      exact h3.2
    refine ⟨?_, ih.2⟩
    simp [goodWord, h1, hw]

theorem splitWs_word_append : ∀ (w rest : List Char), goodWord w = true →
    (rest = [] ∨ ∃ r2, rest = ' ' :: r2) →
    splitWs (w ++ rest) = w :: splitWs rest := by
  intro w
  induction w with
  | nil => intro rest hg _; simp [goodWord] at hg
  | cons c w2 ih =>
    intro rest hg hrest
    have hc : isWs c = false := by
      simp only [goodWord, List.all_cons, Bool.and_eq_true] at hg
      simpa using hg.2.1
    cases w2 with
    | nil =>
      rcases hrest with rfl | ⟨r2, rfl⟩
      · simp [splitWs_single c hc, splitWs, hc]
      · rw [List.singleton_append,
          splitWs_cons_wsHead c ' ' r2 hc (by decide)]
    | cons c2 w3 =>
      have hg2 : goodWord (c2 :: w3) = true := by
        simp only [goodWord, List.all_cons, Bool.and_eq_true] at hg ⊢
        exact ⟨by simp, hg.2.2⟩
      have hc2 : isWs c2 = false := by
        simp only [goodWord, List.all_cons, Bool.and_eq_true] at hg2
        simpa using hg2.2.1
      have ihres := ih rest hg2 hrest
      rw [List.cons_append] at ihres
      rw [show ((c :: c2 :: w3) ++ rest) = c :: (c2 :: (w3 ++ rest)) from by simp,
        splitWs_cons_cons c c2 (w3 ++ rest) hc hc2, ihres]

theorem splitWs_joinSpace : ∀ (ws : List (List Char)),
    ws.all goodWord = true → splitWs (joinSpace ws) = ws := by
  intro ws
  induction ws using joinSpace.induct with
  | case1 => intro _; simp [joinSpace, splitWs]
  | case2 w =>
    intro hg
    have hgw : goodWord w = true := by simpa using hg
    have h2 := splitWs_word_append w [] hgw (Or.inl rfl)
    simpa [joinSpace, splitWs] using h2
  | case3 w ws hne ih =>
    intro hg
    cases ws with
    | nil => exact absurd rfl hne
    | cons w2 ws2 =>
      simp only [List.all_cons, Bool.and_eq_true] at hg
      have h1 := splitWs_word_append w (' ' :: joinSpace (w2 :: ws2)) hg.1
        (Or.inr ⟨_, rfl⟩)
      have h3 : splitWs (joinSpace (w2 :: ws2)) = w2 :: ws2 :=
        ih (by simp only [List.all_cons, Bool.and_eq_true]; exact hg.2)
      calc splitWs (joinSpace (w :: w2 :: ws2))
          = splitWs (w ++ ' ' :: joinSpace (w2 :: ws2)) := by simp [joinSpace]
        _ = w :: splitWs (' ' :: joinSpace (w2 :: ws2)) := h1
        _ = w :: splitWs (joinSpace (w2 :: ws2)) := by
            rw [splitWs_ws_cons _ _ (by decide)]
        _ = w :: w2 :: ws2 := by rw [h3]

theorem stripWs_eq_self (l : List Char)
    (h1 : ∀ c, l.head? = some c → isWs c = false)
    (h2 : ∀ c, l.getLast? = some c → isWs c = false) :
    stripWs l = l := by
  cases l with
  | nil => rfl
  | cons c cs =>
    have hfront : (c :: cs).dropWhile isWs = c :: cs := by
      rw [List.dropWhile_cons]
      simp [h1 c rfl]
    rw [stripWs, hfront]
    cases hr : (c :: cs).reverse with
    | nil => exact absurd hr (by simp)
    | cons r rs =>
      have hlast : (c :: cs).getLast? = some r := by
        rw [← List.head?_reverse, hr]
        rfl
      have hdrop : List.dropWhile isWs (r :: rs) = r :: rs := by
        rw [List.dropWhile_cons]
        simp [h2 r hlast]
      rw [hdrop, ← hr, List.reverse_reverse]

theorem joinSpace_ne_nil : ∀ (ws : List (List Char)), ws ≠ [] →
    ws.all goodWord = true → joinSpace ws ≠ [] := by
  intro ws
  induction ws using joinSpace.induct with
  | case1 => intro h _; exact absurd rfl h
  | case2 w =>
    intro _ hg
    have hgw : goodWord w = true := by simpa using hg
    simp only [goodWord, Bool.and_eq_true] at hgw
    simp only [joinSpace]
    intro h0
    rw [h0] at hgw
    simp at hgw
  | case3 w ws hne ih =>
    intro _ hg
    cases ws with
    | nil => exact absurd rfl hne
    | cons w2 ws2 =>
      simp only [joinSpace]
      simp only [List.all_cons, Bool.and_eq_true, goodWord] at hg
      intro h0
      rcases List.append_eq_nil.mp h0 with ⟨hw, _⟩
      rw [hw] at hg
      simp at hg

theorem joinSpace_head_not_ws : ∀ (ws : List (List Char)),
    ws.all goodWord = true → ∀ c, (joinSpace ws).head? = some c →
    isWs c = false := by
  intro ws
  induction ws using joinSpace.induct with
  | case1 => intro _ c hc; simp [joinSpace] at hc
  | case2 w =>
    intro hg c hc
    cases w with
    | nil => simp [joinSpace] at hc
    | cons d w2 =>
      simp only [joinSpace, List.head?_cons, Option.some.injEq] at hc
      have hgw : goodWord (d :: w2) = true := by simpa using hg
      simp only [goodWord, List.all_cons, Bool.and_eq_true] at hgw
      rw [← hc]
      simpa using hgw.2.1
  | case3 w ws hne ih =>
    intro hg c hc
    cases ws with
    | nil => exact absurd rfl hne
    | cons w2 ws2 =>
      simp only [List.all_cons, Bool.and_eq_true] at hg
      cases w with
      | nil => exact absurd hg.1 (by simp [goodWord])
      | cons d w3 =>
        simp only [joinSpace, List.cons_append, List.head?_cons,
          Option.some.injEq] at hc
        have hgw := hg.1
        simp only [goodWord, List.all_cons, Bool.and_eq_true] at hgw
        rw [← hc]
        simpa using hgw.2.1

theorem joinSpace_last_not_ws : ∀ (ws : List (List Char)),
    ws.all goodWord = true → ∀ c, (joinSpace ws).getLast? = some c →
    isWs c = false := by
  intro ws
  induction ws using joinSpace.induct with
  | case1 => intro _ c hc; simp [joinSpace] at hc
  | case2 w =>
    intro hg c hc
    simp only [joinSpace] at hc
    have hmem : c ∈ w := List.mem_of_getLast?_eq_some hc
    have hgw : goodWord w = true := by simpa using hg
    simp only [goodWord, Bool.and_eq_true, List.all_eq_true] at hgw
    simpa using hgw.2 c hmem
  | case3 w ws hne ih =>
    intro hg c hc
    cases ws with
    | nil => exact absurd rfl hne
    | cons w2 ws2 =>
      simp only [List.all_cons, Bool.and_eq_true] at hg
      simp only [joinSpace] at hc
      rw [List.getLast?_append_of_ne_nil _ (List.cons_ne_nil _ _)] at hc
      have hjne : joinSpace (w2 :: ws2) ≠ [] :=
        joinSpace_ne_nil (w2 :: ws2) (List.cons_ne_nil _ _)
          (by simp only [List.all_cons, Bool.and_eq_true]; exact hg.2)
      cases hj : joinSpace (w2 :: ws2) with
      | nil => exact absurd hj hjne
      | cons j js =>
        rw [hj, List.getLast?_cons_cons] at hc
        rw [← hj] at hc
        exact ih (by simp only [List.all_cons, Bool.and_eq_true]; exact hg.2) c hc

theorem collapseWs_eq_join (l : List Char) :
    collapseWs l = joinSpace (splitWs l) := by
  rw [collapseWs]
  cases hsp : splitWs l with
  | nil => simp [joinSpace, stripWs]
  | cons w ws =>
    refine stripWs_eq_self _ ?_ ?_
    · exact fun c hc => joinSpace_head_not_ws (w :: ws)
        (hsp ▸ splitWs_good l) c hc
    · exact fun c hc => joinSpace_last_not_ws (w :: ws)
        (hsp ▸ splitWs_good l) c hc

theorem collapseWs_idem (l : List Char) :
    collapseWs (collapseWs l) = collapseWs l := by
  rw [collapseWs_eq_join l, collapseWs_eq_join (joinSpace (splitWs l)),
    splitWs_joinSpace (splitWs l) (splitWs_good l)]

theorem tagFree_collapseWs (l : List Char) (h : tagFree l = true) :
    tagFree (collapseWs l) = true := by
  rw [collapseWs_eq_join]
  exact tagFree_joinSpace (splitWs l) (wsOk_splitWs l h)

theorem tagFree_cleanText (s : String) : tagFree (cleanText s).data = true := by
  refine tagFree_collapseWs _ ?_
  exact tagFree_subGenericF _ _ (le_refl _)

/-! ## Batching lemmas -/

theorem ceilDiv_of_le (B n : Nat) (hB : 0 < B) (h1 : 0 < n) (h2 : n ≤ B) :
    (n + B - 1) / B = 1 := by
  have h3 : n + B - 1 = (n - 1) + B := by omega
  rw [h3, Nat.add_div_right _ hB, Nat.div_eq_of_lt (by omega)]

theorem ceilDiv_succ (B n : Nat) (hB : 0 < B) (hn : 0 < n) :
    (n + B - 1) / B = (n - B + B - 1) / B + 1 := by
  rcases le_or_lt n B with h | h
  · rw [ceilDiv_of_le B n hB hn h]
    have h0 : n - B = 0 := by omega
    have h1 : 0 + B - 1 = B - 1 := by omega
    rw [h0, h1, Nat.div_eq_of_lt (by omega)]
  · have e1 : n + B - 1 = ((n - 1 - B) + B) + B := by omega
    have e2 : n - B + B - 1 = (n - 1 - B) + B := by omega
    rw [e1, e2, Nat.add_div_right _ hB, Nat.add_div_right _ hB]

theorem chunks_nil (B : Nat) : chunks B ([] : List α) = [] := by
  cases B <;> simp [chunks]

theorem chunks_eq_nil_iff (B : Nat) (l : List α) : chunks B l = [] ↔ l = [] := by
  constructor
  · intro h
    cases l with
    | nil => rfl
    | cons c cs => cases B <;> simp [chunks] at h
  · intro h
    rw [h, chunks_nil]

theorem chunks_flatten (B : Nat) (hB : 0 < B) (l : List α) :
    (chunks B l).flatten = l := by
  induction B, l using chunks.induct with
  | case1 B => simp [chunks]
  | case2 l h => omega
  | case3 B c cs ih =>
    simp only [chunks, List.flatten_cons]
    rw [ih (by omega)]
    exact List.take_append_drop _ _

theorem chunks_length (B : Nat) (hB : 0 < B) (l : List α) :
    (chunks B l).length = (l.length + B - 1) / B := by
  induction B, l using chunks.induct with
  | case1 B =>
    rw [chunks_nil]
    simp only [List.length_nil]
    rw [Nat.div_eq_of_lt (by omega)]
  | case2 l h => omega
  | case3 B c cs ih =>
    simp only [chunks, List.length_cons, Nat.succ_eq_add_one]
    rw [ih (by omega)]
    simp only [List.length_drop, List.length_cons]
    rw [← ceilDiv_succ (B + 1) (cs.length + 1) (by omega) (by omega)]

theorem chunks_init_sizes (B : Nat) (hB : 0 < B) (l : List α) :
    ∀ i, i + 1 < (chunks B l).length → ((chunks B l).getD i []).length = B := by
  induction B, l using chunks.induct with
  | case1 B => intro i hi; rw [chunks_nil] at hi; simp at hi
  | case2 l h => omega
  | case3 B c cs ih =>
    intro i hi
    simp only [chunks] at hi ⊢
    cases i with
    | zero =>
      simp only [List.getD_cons_zero, List.length_take, List.length_cons]
      simp only [List.length_cons] at hi
      have hne : chunks (B + 1) ((c :: cs).drop (B + 1)) ≠ [] := by
        intro h0
        rw [h0] at hi
        simp at hi
      have hdropne : (c :: cs).drop (B + 1) ≠ [] := by
        intro h0
        exact hne (by rw [h0, chunks_nil])
      have hlen : B + 1 < cs.length + 1 := by
        by_contra hlt
        exact hdropne (List.drop_eq_nil_of_le (by simp only [List.length_cons]; omega))
      rw [Nat.min_eq_left (by omega)]
    | succ j =>
      simp only [List.getD_cons_succ]
      exact ih (by omega) j (by simpa using hi)

theorem chunks_last (B : Nat) (hB : 0 < B) (l : List α) (hl : l ≠ []) :
    ∃ w, (chunks B l).getLast? = some w
      ∧ w.length = l.length - B * ((chunks B l).length - 1)
      ∧ B * ((chunks B l).length - 1) < l.length := by
  induction B, l using chunks.induct with
  | case1 B => exact absurd rfl hl
  | case2 l h => omega
  | case3 B c cs ih =>
    have hcons : chunks (B + 1) (c :: cs)
        = (c :: cs).take (B + 1) :: chunks (B + 1) ((c :: cs).drop (B + 1)) := by
      simp [chunks]
    by_cases hdrop : (c :: cs).drop (B + 1) = []
    · have hle : cs.length + 1 ≤ B + 1 := by
        have h1 := List.drop_eq_nil_iff.mp hdrop
        simp only [List.length_cons] at h1
        omega
      refine ⟨(c :: cs).take (B + 1), ?_, ?_, ?_⟩
      · rw [hcons, hdrop, chunks_nil]
        rfl
      · rw [hcons, hdrop, chunks_nil]
        have h9 : [(c :: cs).take (B + 1)].length = 1 := rfl
        rw [h9]
        simp only [Nat.sub_self, Nat.mul_zero, Nat.sub_zero, List.length_take,
          List.length_cons]
        rw [Nat.min_eq_right (by omega)]
      · rw [hcons, hdrop, chunks_nil]
        have h9 : [(c :: cs).take (B + 1)].length = 1 := rfl
        rw [h9]
        simp only [Nat.sub_self, Nat.mul_zero, List.length_cons]
        omega
    · obtain ⟨w, hw1, hw2, hw3⟩ := ih (by omega) hdrop
      have hne : chunks (B + 1) ((c :: cs).drop (B + 1)) ≠ [] :=
        fun h0 => hdrop ((chunks_eq_nil_iff _ _).mp h0)
      have hlenR : 1 ≤ (chunks (B + 1) ((c :: cs).drop (B + 1))).length := by
        cases h0 : chunks (B + 1) ((c :: cs).drop (B + 1)) with
        | nil => exact absurd h0 hne
        | cons x xs => simp
      have hmul : (B + 1) * (chunks (B + 1) ((c :: cs).drop (B + 1))).length
          = (B + 1) * ((chunks (B + 1) ((c :: cs).drop (B + 1))).length - 1) + (B + 1) := by
        have h4 : (chunks (B + 1) ((c :: cs).drop (B + 1))).length
            = ((chunks (B + 1) ((c :: cs).drop (B + 1))).length - 1) + 1 := by omega
        conv_lhs => rw [h4]
        rw [Nat.mul_add, Nat.mul_one]
      refine ⟨w, ?_, ?_, ?_⟩
      · rw [hcons,
          show (c :: cs).take (B + 1) :: chunks (B + 1) ((c :: cs).drop (B + 1))
            = [(c :: cs).take (B + 1)] ++ chunks (B + 1) ((c :: cs).drop (B + 1)) from rfl,
          List.getLast?_append_of_ne_nil _ hne]
        exact hw1
      · rw [hcons]
        simp only [List.length_cons, Nat.succ_eq_add_one, Nat.add_sub_cancel]
        rw [hmul]
        simp only [List.length_drop, List.length_cons] at hw2 hw3
        omega
      · rw [hcons]
        simp only [List.length_cons, Nat.succ_eq_add_one, Nat.add_sub_cancel]
        rw [hmul]
        simp only [List.length_drop, List.length_cons] at hw3
        omega

theorem sliceBatches_eq_chunks (B : Nat) (hB : 0 < B) (l : List α) :
    sliceBatches B l = chunks B l := by
  induction B, l using chunks.induct with
  | case1 B =>
    rw [chunks_nil]
    simp only [sliceBatches, pyRange, List.length_nil]
    rw [Nat.div_eq_of_lt (by omega)]
    simp
  | case2 l h => omega
  | case3 B c cs ih =>
    simp only [chunks]
    rw [← ih (by omega)]
    simp only [sliceBatches, pyRange]
    rw [ceilDiv_succ (B + 1) (c :: cs).length (by omega) (by simp),
      List.range_succ_eq_map]
    simp only [List.map_cons, List.map_map, List.length_drop]
    refine congrArg₂ _ ?_ ?_
    · simp
    · refine List.map_congr_left ?_
      intro i _
      simp only [Function.comp]
      have e1 : Nat.succ i * (B + 1) + (B + 1) = (B + 1) + (i * (B + 1) + (B + 1)) := by
        simp [Nat.succ_mul]; omega
      have e2 : Nat.succ i * (B + 1) = i * (B + 1) + (B + 1) := by
        simp [Nat.succ_mul]
      rw [e1, e2, List.take_drop, List.drop_drop]
      congr 1
      omega

theorem procSlices_eq_sliceBatches (B : Nat) (l : List α) :
    procSlices B l = sliceBatches B l := by
  simp only [procSlices, sliceBatches]
  refine List.map_congr_left ?_
  intro s _
  rcases le_or_lt (s + B) l.length with h | h
  · rw [Nat.min_eq_left h]
  · rw [Nat.min_eq_right (by omega), List.take_length,
      List.take_of_length_le (by omega)]

theorem procSlices_eq_chunks (B : Nat) (hB : 0 < B) (l : List α) :
    procSlices B l = chunks B l := by
  rw [procSlices_eq_sliceBatches, sliceBatches_eq_chunks B hB]

/-- C5 counterexample: for 25 entries and batch size 10 the processor
produces batches of sizes 10, 10, 5 — the last has 5 entries, while
the claimed formula `N - B*(N div B - 1)` gives 25 - 10*(2 - 1) = 15. -/
theorem c5_last_size_formula_wrong :
    ((procSlices 10 (List.range 25)).getLast?.map List.length = some 5)
    ∧ 25 - 10 * (25 / 10 - 1) = 15 ∧ (5 : Nat) ≠ 15 := by
  refine ⟨by decide, by decide, by decide⟩

/-- C5 amended: partitioning `N` entries with fixed batch size `B > 0`
yields `ceil(N/B)` batches; every batch before the last has exactly
`B` entries; the last batch has `N - B*(ceil(N/B) - 1)` entries
(equivalently `N mod B` when `B` does not divide `N`); and the
concatenation of the batches in batch order is exactly the original
entry sequence (so consecutive batches do not overlap). -/
theorem c5_partition (B : Nat) (hB : 0 < B) (l : List α) :
    (procSlices B l).length = (l.length + B - 1) / B
    ∧ (∀ i, i + 1 < (procSlices B l).length →
        ((procSlices B l).getD i []).length = B)
    ∧ (∀ w, (procSlices B l).getLast? = some w →
        w.length = l.length - B * ((procSlices B l).length - 1))
    ∧ (procSlices B l).flatten = l := by
  rw [procSlices_eq_chunks B hB]
  refine ⟨chunks_length B hB l, chunks_init_sizes B hB l, ?_, chunks_flatten B hB l⟩
  intro w hw
  have hl : l ≠ [] := by
    intro h0
    rw [h0, chunks_nil] at hw
    simp at hw
  obtain ⟨w2, hw1, hw2, _⟩ := chunks_last B hB l hl
  rw [hw1] at hw
  cases hw
  exact hw2

/-- Witness for the C5 amended theorem: 25 entries, batch size 10. -/
theorem c5_partition_witness :
    (procSlices 10 (List.range 25)).length = 3
    ∧ ((procSlices 10 (List.range 25)).getD 0 []).length = 10
    ∧ (procSlices 10 (List.range 25)).flatten = List.range 25 := by
  have h := c5_partition 10 (by decide) (List.range 25)
  exact ⟨by rw [h.1]; decide, h.2.1 0 (by rw [h.1]; decide), h.2.2.2⟩

/-! ## Batch-loop lemmas -/

theorem runLoop_done_all_ok (tr : List String → Except String (List String))
    (cf : Nat → Bool) (total : Nat) :
    ∀ (batches : List (List Entry)) (k : Nat) (st : RunState),
      (runLoop tr cf total batches k st).2 = .done →
      ∀ b ∈ batches, ∃ ts, tr (batchTexts b) = .ok ts := by
  intro batches
  induction batches with
  | nil => intro k st _ b hb; simp at hb
  | cons b rest ih =>
    intro k st hdone bb hbb
    by_cases hc : cf k
    · simp [runLoop, hc] at hdone
    · cases htr : tr (batchTexts b) with
      | error e => simp [runLoop, hc, htr] at hdone
      | ok ts =>
        simp only [runLoop, hc, htr, Bool.false_eq_true, if_false] at hdone
        rcases List.mem_cons.mp hbb with rfl | hmem
        · exact ⟨ts, htr⟩
        · exact ih _ _ hdone bb hmem

theorem runLoop_done_processed (tr : List String → Except String (List String))
    (cf : Nat → Bool) (total : Nat) :
    ∀ (batches : List (List Entry)) (k : Nat) (st : RunState),
      (runLoop tr cf total batches k st).2 = .done →
      (runLoop tr cf total batches k st).1.processed
        = st.processed + (batches.map List.length).sum := by
  intro batches
  induction batches with
  | nil => intro k st _; simp [runLoop]
  | cons b rest ih =>
    intro k st hdone
    by_cases hc : cf k
    · simp [runLoop, hc] at hdone
    · cases htr : tr (batchTexts b) with
      | error e => simp [runLoop, hc, htr] at hdone
      | ok ts =>
        simp only [runLoop, hc, htr, Bool.false_eq_true, if_false] at hdone ⊢
        rw [ih _ _ hdone]
        simp only [List.map_cons, List.sum_cons]
        omega

theorem runLoop_translated (tr : List String → Except String (List String))
    (cf : Nat → Bool) (total : Nat) :
    ∀ (batches : List (List Entry)) (k : Nat) (st : RunState),
      ∀ e ∈ (runLoop tr cf total batches k st).1.translated,
        e ∈ st.translated
        ∨ ∃ sub, sub ∈ batches.flatten ∧ e.index = sub.index
            ∧ e.start = sub.start ∧ e.stop = sub.stop := by
  intro batches
  induction batches with
  | nil => intro k st e he; simp [runLoop] at he; exact Or.inl he
  | cons b rest ih =>
    intro k st e he
    by_cases hc : cf k
    · rw [show (runLoop tr cf total (b :: rest) k st).1
          = { st with statuses := st.statuses ++ ["Translation cancelled"] } from by
        simp [runLoop, hc]] at he
      exact Or.inl he
    · cases htr : tr (batchTexts b) with
      | error er =>
        rw [show (runLoop tr cf total (b :: rest) k st).1 = st from by
          simp [runLoop, hc, htr]] at he
        exact Or.inl he
      | ok ts =>
        simp only [runLoop, hc, htr, Bool.false_eq_true, if_false] at he
        rcases ih _ _ e he with hmem | ⟨sub, hsub, h1, h2, h3⟩
        · rcases List.mem_append.mp hmem with hold | hnew
          · exact Or.inl hold
          · rcases List.mem_map.mp hnew with ⟨p, hp, rfl⟩
            refine Or.inr ⟨p.1, ?_, rfl, rfl, rfl⟩
            exact List.mem_flatten.mpr ⟨b, List.mem_cons_self _ _,
              (List.of_mem_zip hp).1⟩
        · refine Or.inr ⟨sub, ?_, h1, h2, h3⟩
          rcases List.mem_flatten.mp hsub with ⟨w, hw, hsw⟩
          exact List.mem_flatten.mpr ⟨w, List.mem_cons_of_mem _ hw, hsw⟩

theorem runLoop_error (tr : List String → Except String (List String))
    (cf : Nat → Bool) (total : Nat) (hcf : ∀ k, cf k = false) :
    ∀ (batches : List (List Entry)) (k : Nat) (st : RunState),
      (∃ b ∈ batches, ∀ ts, tr (batchTexts b) ≠ .ok ts) →
      ∃ e, (runLoop tr cf total batches k st).2 = .failed e := by
  intro batches
  induction batches with
  | nil => intro k st ⟨b, hb, _⟩; simp at hb
  | cons b rest ih =>
    intro k st ⟨bb, hbb, hbad⟩
    cases htr : tr (batchTexts b) with
    | error e => exact ⟨e, by simp [runLoop, hcf k, htr]⟩
    | ok ts =>
      rcases List.mem_cons.mp hbb with rfl | hmem
      · exact absurd htr (hbad ts)
      · simp only [runLoop, hcf k, htr, Bool.false_eq_true, if_false]
        exact ih _ _ ⟨bb, hmem, hbad⟩

/-- C7: if any batch's translation call ends in a terminal error, the
run propagates that error outward, emits the `Error: ...` status, and
writes no output; conversely an output file is written only when
every dispatched batch's translation call succeeded. -/
theorem c7_failure_writes_nothing (tr : List String → Except String (List String))
    (cancelF : Nat → Bool) (path : String) (subs : List Entry) :
    (∀ e, (translateProcess tr cancelF path subs).outcome = .error e →
      (translateProcess tr cancelF path subs).written = none
      ∧ ("Error: " ++ e) ∈ (translateProcess tr cancelF path subs).statuses)
    ∧ (∀ s, (translateProcess tr cancelF path subs).written = some s →
      (translateProcess tr cancelF path subs).outcome = .ok ()
      ∧ ∀ b ∈ procSlices 50 subs, ∃ ts, tr (batchTexts b) = .ok ts)
    ∧ ((∀ k, cancelF k = false) →
      (∃ b ∈ procSlices 50 subs, ∀ ts, tr (batchTexts b) ≠ .ok ts) →
      ∃ e, (translateProcess tr cancelF path subs).outcome = .error e
        ∧ (translateProcess tr cancelF path subs).written = none) := by
  refine ⟨?_, ?_, ?_⟩
  · intro e he
    cases hex : (runLoop tr cancelF subs.length (procSlices 50 subs) 0 ⟨[], 0, 0, [], []⟩).2 with
    | done => simp [translateProcess, hex] at he
    | cancelled => simp [translateProcess, hex] at he
    | failed e2 =>
      simp only [translateProcess, hex] at he ⊢
      simp only [Except.error.injEq] at he
      subst he
      exact ⟨by trivial, by simp⟩
  · intro s hs
    cases hex : (runLoop tr cancelF subs.length (procSlices 50 subs) 0 ⟨[], 0, 0, [], []⟩).2 with
    | done =>
      refine ⟨by simp [translateProcess, hex], ?_⟩
      exact runLoop_done_all_ok tr cancelF subs.length _ _ _ hex
    | cancelled => simp [translateProcess, hex] at hs
    | failed e2 => simp [translateProcess, hex] at hs
  · intro hcf hbad
    obtain ⟨e, he⟩ := runLoop_error tr cancelF subs.length hcf (procSlices 50 subs)
      0 ⟨[], 0, 0, [], []⟩ hbad
    exact ⟨e, by simp [translateProcess, he], by simp [translateProcess, he]⟩

/-- Witness for C7: a run whose only batch fails terminally has an
error outcome and no written output. -/
theorem c7_failure_writes_nothing_witness :
    ∃ e, (translateProcess boomTr noCancel outPath0 [entrySeven]).outcome
        = Except.error e
      ∧ (translateProcess boomTr noCancel outPath0 [entrySeven]).written = none :=
  (c7_failure_writes_nothing boomTr noCancel outPath0 [entrySeven]).2.2
    (fun _ => rfl)
    ⟨[entrySeven], by decide, fun ts h => Except.noConfusion h⟩

/-- C8 amended: on a document with at least one entry, a cancellation
flag that is set at the first batch check makes the run stop before
any batch: no output is written, the `Translation cancelled` status
is emitted, and the run ends without error. -/
theorem c8_cancel_before_first_batch (tr : List String → Except String (List String))
    (cancelF : Nat → Bool) (path : String) (subs : List Entry)
    (hne : subs ≠ []) (hc : cancelF 0 = true) :
    (translateProcess tr cancelF path subs).written = none
    ∧ "Translation cancelled" ∈ (translateProcess tr cancelF path subs).statuses
    ∧ (translateProcess tr cancelF path subs).outcome = .ok () := by
  obtain ⟨b, rest, hbr⟩ : ∃ b rest, procSlices 50 subs = b :: rest := by
    rw [procSlices_eq_chunks 50 (by omega) subs]
    cases h2 : chunks 50 subs with
    | nil => exact absurd ((chunks_eq_nil_iff _ _).mp h2) hne
    | cons b rest => exact ⟨b, rest, rfl⟩
  refine ⟨?_, ?_, ?_⟩ <;>
    simp [translateProcess, hbr, runLoop, hc]

/-- Witness for the C8 amended theorem: a one-entry document with the
flag set from the start. -/
theorem c8_cancel_before_first_batch_witness :
    (translateProcess echoTr allCancel outPath0 [entrySeven]).written = none
    ∧ "Translation cancelled"
      ∈ (translateProcess echoTr allCancel outPath0 [entrySeven]).statuses
    ∧ (translateProcess echoTr allCancel outPath0 [entrySeven]).outcome = .ok () :=
  c8_cancel_before_first_batch echoTr allCancel outPath0 [entrySeven]
    (by decide) rfl

/-! ## Progress lemmas -/

theorem progFormula_nonneg (N p : Nat) :
    (0:ℚ) ≤ min (100:ℚ) ((p:ℚ) / (N:ℚ) * 100) := by
  refine le_min (by norm_num) ?_
  positivity

theorem progFormula_le_100 (N p : Nat) :
    min (100:ℚ) ((p:ℚ) / (N:ℚ) * 100) ≤ 100 :=
  min_le_left _ _

theorem progFormula_mono (N p q : Nat) (hpq : p ≤ q) :
    min (100:ℚ) ((p:ℚ) / (N:ℚ) * 100) ≤ min (100:ℚ) ((q:ℚ) / (N:ℚ) * 100) := by
  rcases Nat.eq_zero_or_pos N with h0 | hN
  · subst h0
    norm_num
  · have hN2 : (0:ℚ) < (N:ℚ) := by exact_mod_cast hN
    refine min_le_min le_rfl ?_
    have hq : (p:ℚ) ≤ (q:ℚ) := by exact_mod_cast hpq
    exact mul_le_mul_of_nonneg_right ((div_le_div_iff_of_pos_right hN2).mpr hq) (by norm_num)

theorem progFormula_eq_100 (N p : Nat) (hN : 0 < N) (hp : p ≤ N)
    (h : min (100:ℚ) ((p:ℚ) / (N:ℚ) * 100) = 100) : p = N := by
  by_contra hne
  have hlt : p < N := lt_of_le_of_ne hp hne
  have hN2 : (0:ℚ) < (N:ℚ) := by exact_mod_cast hN
  have h1 : (p:ℚ) / (N:ℚ) < 1 := (div_lt_one hN2).mpr (by exact_mod_cast hlt)
  have h2 : (p:ℚ) / (N:ℚ) * 100 < 100 := by
    have h3 := mul_lt_mul_of_pos_right h1 (show (0:ℚ) < 100 by norm_num)
    rwa [one_mul] at h3
  have h4 : min (100:ℚ) ((p:ℚ) / (N:ℚ) * 100) < 100 :=
    lt_of_le_of_lt (min_le_right _ _) h2
  rw [h] at h4
  exact lt_irrefl _ h4

theorem progFormula_at_total (N : Nat) (hN : 0 < N) :
    min (100:ℚ) ((N:ℚ) / (N:ℚ) * 100) = (100:ℚ) := by
  have hN2 : (N:ℚ) ≠ 0 := by
    have : (0:ℚ) < (N:ℚ) := by exact_mod_cast hN
    exact ne_of_gt this
  rw [div_self hN2, one_mul, min_self]

theorem runLoop_progress (tr : List String → Except String (List String))
    (cf : Nat → Bool) (total : Nat) :
    ∀ (batches : List (List Entry)) (k : Nat) (st : RunState),
      st.processed + (batches.map List.length).sum ≤ total →
      List.Chain' (fun a b : Nat × ℚ => a.2 ≤ b.2) st.progressCalls →
      (∀ pc ∈ st.progressCalls, pc.1 ≤ st.processed
        ∧ pc.2 = min 100 ((pc.1 : ℚ) / (total : ℚ) * 100)) →
      (runLoop tr cf total batches k st).1.processed ≤ total
      ∧ st.processed ≤ (runLoop tr cf total batches k st).1.processed
      ∧ List.Chain' (fun a b : Nat × ℚ => a.2 ≤ b.2)
          (runLoop tr cf total batches k st).1.progressCalls
      ∧ (∀ pc ∈ (runLoop tr cf total batches k st).1.progressCalls,
          pc.1 ≤ (runLoop tr cf total batches k st).1.processed
          ∧ pc.2 = min 100 ((pc.1 : ℚ) / (total : ℚ) * 100)) := by
  intro batches
  induction batches with
  | nil =>
    intro k st hsum hchain hpc
    simp only [runLoop]
    exact ⟨by simpa using hsum, le_refl _, hchain, hpc⟩
  | cons b rest ih =>
    intro k st hsum hchain hpc
    simp only [List.map_cons, List.sum_cons] at hsum
    by_cases hc : cf k
    · simp only [runLoop, hc, if_true]
      exact ⟨by omega, le_refl _, hchain, hpc⟩
    · cases htr : tr (batchTexts b) with
      | error e =>
        simp only [runLoop, hc, htr, Bool.false_eq_true, if_false]
        exact ⟨by omega, le_refl _, hchain, hpc⟩
      | ok ts =>
        simp only [runLoop, hc, htr, Bool.false_eq_true, if_false]
        have hres := ih (k + 1)
          { translated := st.translated ++ ((b.zip ts).map fun p =>
              { index := p.1.index, start := p.1.start, stop := p.1.stop,
                text := stripIdxTag p.2 : Entry })
            processed := st.processed + b.length
            completedBatches := st.completedBatches + 1
            statuses := st.statuses ++
              ["Completed batch " ++ toString (st.completedBatches + 1) ++ "/"
                ++ toString ((total + 50 - 1) / 50) ++ " ("
                ++ toString (st.processed + b.length)
                ++ "/" ++ toString total ++ " subtitles)"]
            progressCalls := st.progressCalls ++
              [(st.processed + b.length,
                min (100 : ℚ) (((st.processed + b.length : Nat) : ℚ) / (total : ℚ) * 100))] }
          (by
            show st.processed + b.length + (rest.map List.length).sum ≤ total
            omega)
          (by
            refine List.chain'_append.mpr ⟨hchain, List.chain'_singleton _, ?_⟩
            intro x hx y hy
            simp only [List.head?_cons, Option.mem_def, Option.some.injEq] at hy
            subst hy
            have hxmem : x ∈ st.progressCalls :=
              List.mem_of_getLast?_eq_some hx
            obtain ⟨hx1, hx2⟩ := hpc x hxmem
            rw [hx2]
            exact progFormula_mono total x.1 (st.processed + b.length) (by omega))
          (by
            intro pc hpcmem
            rcases List.mem_append.mp hpcmem with hold | hnew
            · obtain ⟨h1, h2⟩ := hpc pc hold
              refine ⟨?_, h2⟩
              show pc.1 ≤ st.processed + b.length
              omega
            · simp only [List.mem_singleton] at hnew
              subst hnew
              exact ⟨le_refl _, rfl⟩)
        refine ⟨hres.1, ?_, hres.2.2⟩
        exact le_trans (Nat.le_add_right _ _) hres.2.1

/-- C9: within a run on a nonempty document, the values passed to the
progress callback are monotonically non-decreasing; each value equals
`processed/total*100` clamped to [0, 100] for the processed count at
call time; and a value of 100 is only ever reported when all entries
have been accounted for. -/
theorem c9_progress_monotone (tr : List String → Except String (List String))
    (cancelF : Nat → Bool) (path : String) (subs : List Entry)
    (hne : subs ≠ []) :
    List.Chain' (fun a b : Nat × ℚ => a.2 ≤ b.2)
      (translateProcess tr cancelF path subs).progressCalls
    ∧ (∀ pc ∈ (translateProcess tr cancelF path subs).progressCalls,
        pc.2 = min 100 ((pc.1 : ℚ) / (subs.length : ℚ) * 100)
        ∧ 0 ≤ pc.2 ∧ pc.2 ≤ 100)
    ∧ (∀ pc ∈ (translateProcess tr cancelF path subs).progressCalls,
        pc.2 = 100 → pc.1 = subs.length) := by
  have hT : 0 < subs.length := List.length_pos.mpr hne
  have hsumEq : ((procSlices 50 subs).map List.length).sum = subs.length := by
    have hfl : (procSlices 50 subs).flatten = subs := by
      rw [procSlices_eq_chunks 50 (by omega)]
      exact chunks_flatten 50 (by omega) subs
    have h2 := congrArg List.length hfl
    rwa [List.length_flatten] at h2
  obtain ⟨hA, _, hB, hC⟩ := runLoop_progress tr cancelF subs.length
    (procSlices 50 subs) 0 ⟨[], 0, 0, [], []⟩ (by simp [hsumEq]) (by simp) (by simp)
  cases hex : (runLoop tr cancelF subs.length (procSlices 50 subs) 0 ⟨[], 0, 0, [], []⟩).2 with
  | done =>
    have hproc : (runLoop tr cancelF subs.length (procSlices 50 subs) 0
        ⟨[], 0, 0, [], []⟩).1.processed = subs.length := by
      rw [runLoop_done_processed tr cancelF subs.length _ _ _ hex]
      simpa using hsumEq
    simp only [translateProcess, hex]
    refine ⟨?_, ?_, ?_⟩
    · refine List.chain'_append.mpr ⟨hB, List.chain'_singleton _, ?_⟩
      intro x hx y hy
      simp only [List.head?_cons, Option.mem_def, Option.some.injEq] at hy
      subst hy
      obtain ⟨_, hx2⟩ := hC x (List.mem_of_getLast?_eq_some hx)
      rw [hx2]
      exact progFormula_le_100 _ _
    · intro pc hmem
      rcases List.mem_append.mp hmem with hold | hnew
      · obtain ⟨_, h2⟩ := hC pc hold
        exact ⟨h2, by rw [h2]; exact progFormula_nonneg _ _,
          by rw [h2]; exact progFormula_le_100 _ _⟩
      · simp only [List.mem_singleton] at hnew
        subst hnew
        refine ⟨?_, by norm_num, by norm_num⟩
        rw [hproc]
        exact (progFormula_at_total subs.length hT).symm
    · intro pc hmem h100
      rcases List.mem_append.mp hmem with hold | hnew
      · obtain ⟨h1, h2⟩ := hC pc hold
        rw [h2] at h100
        exact progFormula_eq_100 subs.length pc.1 hT (by omega) h100
      · simp only [List.mem_singleton] at hnew
        subst hnew
        exact hproc
  | cancelled =>
    simp only [translateProcess, hex]
    refine ⟨hB, ?_, ?_⟩
    · intro pc hmem
      obtain ⟨_, h2⟩ := hC pc hmem
      exact ⟨h2, by rw [h2]; exact progFormula_nonneg _ _,
        by rw [h2]; exact progFormula_le_100 _ _⟩
    · intro pc hmem h100
      obtain ⟨h1, h2⟩ := hC pc hmem
      rw [h2] at h100
      exact progFormula_eq_100 subs.length pc.1 hT (by omega) h100
  | failed e =>
    simp only [translateProcess, hex]
    refine ⟨hB, ?_, ?_⟩
    · intro pc hmem
      obtain ⟨_, h2⟩ := hC pc hmem
      exact ⟨h2, by rw [h2]; exact progFormula_nonneg _ _,
        by rw [h2]; exact progFormula_le_100 _ _⟩
    · intro pc hmem h100
      obtain ⟨h1, h2⟩ := hC pc hmem
      rw [h2] at h100
      exact progFormula_eq_100 subs.length pc.1 hT (by omega) h100

/-- Witness for C9 at a concrete one-entry run. -/
theorem c9_progress_monotone_witness :
    List.Chain' (fun a b : Nat × ℚ => a.2 ≤ b.2)
      (translateProcess echoTr noCancel outPath0 [entrySeven]).progressCalls
    ∧ (∀ pc ∈ (translateProcess echoTr noCancel outPath0 [entrySeven]).progressCalls,
        pc.2 = 100 → pc.1 = [entrySeven].length) :=
  ⟨(c9_progress_monotone echoTr noCancel outPath0 [entrySeven] (by decide)).1,
   (c9_progress_monotone echoTr noCancel outPath0 [entrySeven] (by decide)).2.2⟩

/-- C2 amended: whenever a run writes an output file, its content is
the serialization, in the canonical block format, of the translated
entries sorted by (original) entry index; every written entry keeps
the index, start and end of a source entry — no renumbering occurs. -/
theorem c2_written_sorted_by_index (tr : List String → Except String (List String))
    (cancelF : Nat → Bool) (path : String) (subs : List Entry) (s : String)
    (h : (translateProcess tr cancelF path subs).written = some s) :
    ∃ l : List Entry, s = srtSerialize l
      ∧ List.Pairwise (fun a b : Entry => a.index ≤ b.index) l
      ∧ ∀ e ∈ l, ∃ sub, sub ∈ subs ∧ e.index = sub.index
          ∧ e.start = sub.start ∧ e.stop = sub.stop := by
  cases hex : (runLoop tr cancelF subs.length (procSlices 50 subs) 0 ⟨[], 0, 0, [], []⟩).2 with
  | cancelled => simp [translateProcess, hex] at h
  | failed e => simp [translateProcess, hex] at h
  | done =>
    simp only [translateProcess, hex, Option.some.injEq] at h
    refine ⟨sortEntries ((runLoop tr cancelF subs.length (procSlices 50 subs) 0
        ⟨[], 0, 0, [], []⟩).1.translated), h.symm, ?_, ?_⟩
    · exact List.sorted_insertionSort _ _
    · intro e he
      rw [sortEntries, List.mem_insertionSort] at he
      rcases runLoop_translated tr cancelF subs.length _ _ _ e he with h0 | ⟨sub, hsub, h1, h2, h3⟩
      · simp at h0
      · refine ⟨sub, ?_, h1, h2, h3⟩
        have hfl : (procSlices 50 subs).flatten = subs := by
          rw [procSlices_eq_chunks 50 (by omega)]
          exact chunks_flatten 50 (by omega) subs
        rwa [hfl] at hsub

/-- Witness for the C2 amended theorem at a concrete successful run. -/
theorem c2_written_sorted_by_index_witness :
    ∃ l : List Entry, srtSerialize (sortEntries [entrySeven]) = srtSerialize l
      ∧ List.Pairwise (fun a b : Entry => a.index ≤ b.index) l
      ∧ ∀ e ∈ l, ∃ sub, sub ∈ [entrySeven] ∧ e.index = sub.index
          ∧ e.start = sub.start ∧ e.stop = sub.stop :=
  c2_written_sorted_by_index echoTr noCancel outPath0 [entrySeven]
    (srtSerialize (sortEntries [entrySeven])) (by decide)

/-- C6: the cleaning operation is idempotent — its output contains no
remaining substitutable tag (every surviving `<` is either part of the
unmatched pattern `<>` or has no `>` after it) and its whitespace is
already collapsed, so cleaning a cleaned text changes nothing. -/
theorem c6_clean_idempotent (s : String) :
    cleanText (cleanText s) = cleanText s := by
  have hy := tagFree_cleanText s
  show (⟨collapseWs (subGeneric (subFontClose (subFontOpen
      (cleanText s).data)))⟩ : String) = cleanText s
  rw [subFontOpen_of_tagFree _ hy, subFontClose_of_tagFree _ hy,
    subGeneric_of_tagFree _ hy]
  show (⟨collapseWs (collapseWs (subGeneric (subFontClose
      (subFontOpen s.data))))⟩ : String) = cleanText s
  rw [collapseWs_idem]
  rfl

/-- C4 amended: cleaning strips `<font ...>` and `</font>` tags and
generic `<tag>` forms (no complete tag can remain in the output), and
collapses every internal whitespace run to a single space and trims
the ends (every output is a list of nonempty whitespace-free words
joined by single spaces); ASS-style blocks in braces are NOT
stripped. -/
theorem c4_clean_strips_tags :
    cleanText ("<font color=\"red\">Hello</font>  <i>world</i>") = "Hello world"
    ∧ (∀ s : String, tagFree (cleanText s).data = true)
    ∧ (∀ s : String, ∃ ws, (cleanText s).data = joinSpace ws
        ∧ ws.all goodWord = true)
    ∧ cleanText ("\x7b\\an8\x7dHi  there") = "\x7b\\an8\x7dHi there" := by
  refine ⟨by decide, tagFree_cleanText, ?_, by decide⟩
  intro s
  exact ⟨splitWs (subGeneric (subFontClose (subFontOpen s.data))),
    collapseWs_eq_join _, splitWs_good _⟩

/-- C10: `translate()` assigns `self.cancel_flag = False` before
starting the run thread, so the run behaves identically whatever the
prior flag value was; by contrast, a run that did inherit a set flag
would cancel before the first batch and write nothing. -/
theorem c10_translate_resets_cancel_flag :
    (∀ (p q : Bool) (tr : List String → Except String (List String))
        (ext : Nat → Bool) (path : String) (subs : List Entry),
      translateMethod p tr ext path subs = translateMethod q tr ext path subs)
    ∧ (translateMethod true echoTr noCancel outPath0 [entrySeven]).written.isSome = true
    ∧ (translateProcess echoTr (cancelSeq true noCancel) outPath0 [entrySeven]).written
      = none := by
  refine ⟨fun p q tr ext path subs => rfl, by decide, by decide⟩

end SubTrans
